import Mathlib

/-!
Shallow embedding of the flashblock repository's core (the transaction
mempool and the periodic block processor) together with proofs of the
specification's testable properties.

Sources embedded:
- `internal/model/transaction.go` (Transaction, Block, NewBlock, generateID,
  NewEthereumTransaction)
- `internal/mempool/mempool.go` (AddTransaction, GetAllTransactions,
  RemoveTransactions)
- `internal/processor/processor.go` (Config, DefaultConfig, New, Start,
  processNextBlock)
- Go standard library `sort.Slice` (pdqsort, Go 1.19+ `sort/zsortfunc.go`),
  which `processNextBlock` uses to order transactions.

Conventions of the embedding:
- Go `map[string]*Transaction` is modelled as a `List Transaction`; the list
  order stands for the (unspecified) map iteration order, and theorems
  quantify over all lists, hence over all iteration orders.
- Wall-clock values appear only through their `String` form (`time.Time.String`),
  so construction timestamps are passed explicitly as strings.
- `crypto/sha256.Sum256` is an external cryptographic primitive; all
  definitions are parametric in a digest function `sha256 : List UInt8 → List UInt8`.
- Machine integers: Go `int`/`int64` values that the claims reason about are
  modelled as `Int`, with explicit wrapping (`wrap64`, `normInt64`) exactly
  where Go's `math/big.Int.Int64` truncates.
- Loops are modelled by structural recursion on an explicit counter; where a
  Go loop has no structurally decreasing index, a fuel argument bounds the
  iteration count and the top-level callers supply fuel exceeding the loop's
  actual iteration count.
-/

namespace Flashblock

/-- Number of bits in the binary representation, Go `math/bits.Len(uint(n))`. -/
def bitsLen (n : Nat) : Nat := if n = 0 then 0 else n.log2 + 1

/-- Bytes of a Go string (Go `[]byte(s)` conversion, UTF-8). -/
def strBytes (s : String) : List UInt8 := s.toUTF8.toList

/-- The character Go `encoding/hex`'s lowercase table `"0123456789abcdef"`
holds at position `n` (for `n < 16`): digits start at code point 48, the
letters `a`–`f` at 97. -/
def hexDigit (n : Nat) : Char :=
  if n < 10 then Char.ofNat (48 + n) else Char.ofNat (87 + n)

/-- Go `hex.EncodeToString`: two lowercase hex digits per byte. -/
def hexEncode (bs : List UInt8) : String :=
  String.mk (bs.flatMap (fun b => [hexDigit (b.toNat / 16), hexDigit (b.toNat % 16)]))

/-- `internal/model.Transaction`. Go `big.Int` pointer fields become
`Option Int` (`none` = nil pointer); `From`/`To` are renamed `fromAddr`/`toAddr`
because `from` is a Lean keyword. -/
structure Transaction where
  id : String
  data : List UInt8
  priority : Int
  timestamp : String
  fromAddr : String
  toAddr : String
  value : Option Int
  gasPrice : Option Int
  gasLimit : Nat
  nonce : Nat
  rawData : String
deriving Repr, DecidableEq, Inhabited

/-- `internal/model.Block`. -/
structure Block where
  id : String
  transactions : List Transaction
  timestamp : String
  prevBlockID : String
  tdxQuote : Option (List UInt8)
deriving Repr, DecidableEq, Inhabited

/-- `(*Block).generateID`: concatenate the member transaction ids (in block
order), the timestamp's string form and the previous block id, hash, and
hex-encode. The byte concatenation mirrors the Go `append` loop. -/
def Block.generateID (sha256 : List UInt8 → List UInt8) (b : Block) : String :=
  let data := b.transactions.foldl (fun d t => d ++ strBytes t.id) []
  let data := data ++ strBytes b.timestamp
  let data := data ++ strBytes b.prevBlockID
  hexEncode (sha256 data)

/-- `model.NewBlock`: build the block, then fill in its content-derived id.
`now` is the construction timestamp's string form. -/
def NewBlock (sha256 : List UInt8 → List UInt8) (transactions : List Transaction)
    (prevBlockID : String) (now : String) : Block :=
  let block : Block :=
    { id := "", transactions := transactions, timestamp := now,
      prevBlockID := prevBlockID, tdxQuote := none }
  { block with id := block.generateID sha256 }

/-- Low 64 bits of a natural number reinterpreted as a signed (two's
complement) 64-bit value, Go `int64(uint64)` conversion. -/
def wrap64 (n : Nat) : Int :=
  let m : Nat := n % 2 ^ 64
  if m < 2 ^ 63 then (m : Int) else (m : Int) - 2 ^ 64

/-- Normalize an integer into the signed 64-bit range (two's complement
wrap-around), Go `int64` negation semantics. -/
def normInt64 (z : Int) : Int := (z + 2 ^ 63) % 2 ^ 64 - 2 ^ 63

/-- Go `math/big.Int.Int64`: the low 64 bits of the absolute value as an
`int64`, negated (with int64 wrap-around) when the big integer is negative. -/
def bigIntInt64 (x : Int) : Int :=
  let v := wrap64 x.natAbs
  if x < 0 then normInt64 (-v) else v

/-- Go `math/big.Int.Div`: Euclidean division (nonnegative remainder). -/
def bigDiv (x y : Int) : Int := Int.ediv x y

/-- Go `math/big.Int.BitLen`: bit length of the absolute value. -/
def bigBitLen (x : Int) : Nat := bitsLen x.natAbs

/-- `model.NewEthereumTransaction`. The id hashes
`data ∥ now ∥ from ∥ to`; the priority is `int(gasPrice.Div(gasPrice, 1e9).Int64())`
when `gasPrice` is non-nil with positive bit length, else 0. -/
def NewEthereumTransaction (sha256 : List UInt8 → List UInt8)
    (fromAddr toAddr : String) (value gasPrice : Option Int)
    (gasLimit nonce : Nat) (data : List UInt8) (rawData : String)
    (now : String) : Transaction :=
  let hashInput := ((data ++ strBytes now) ++ strBytes fromAddr) ++ strBytes toAddr
  let priority : Int :=
    match gasPrice with
    | some g => if bigBitLen g > 0 then bigIntInt64 (bigDiv g 1000000000) else 0
    | none => 0
  { id := hexEncode (sha256 hashInput), data := data, priority := priority,
    timestamp := now, fromAddr := fromAddr, toAddr := toAddr, value := value,
    gasPrice := gasPrice, gasLimit := gasLimit, nonce := nonce, rawData := rawData }

namespace Mempool

/-- Result of `(*Mempool).AddTransaction`: the updated pool, the boolean
returned to the caller, and the `(transaction, added)` notifications delivered
to the registered hooks (Go runs them in a separate goroutine, and only on the
success path). -/
structure AddResult where
  pool : List Transaction
  added : Bool
  hookCalls : List (Transaction × Bool)
deriving Repr, DecidableEq

/-- `(*Mempool).AddTransaction`: reject when the id is already a key of the
map, otherwise store the transaction and fire the hooks with `(tx, true)`. -/
def AddTransaction (pool : List Transaction) (tx : Transaction) : AddResult :=
  if pool.any (fun t => t.id == tx.id) then
    { pool := pool, added := false, hookCalls := [] }
  else
    { pool := pool ++ [tx], added := true, hookCalls := [(tx, true)] }

/-- `(*Mempool).GetAllTransactions`: every value of the map, in iteration
order (the model's list order; theorems quantify over all orders). -/
def GetAllTransactions (pool : List Transaction) : List Transaction := pool

/-- `(*Mempool).RemoveTransactions`: delete each listed id from the map;
missing ids are silently ignored. -/
def RemoveTransactions (pool : List Transaction) (ids : List String) : List Transaction :=
  pool.filter (fun t => !(ids.contains t.id))

end Mempool

namespace GoSort

/-- Go `sort.lessSwap.Less` for `processNextBlock`'s comparator
`transactions[i].Priority > transactions[j].Priority`, reading the current
state of the slice; `key` extracts the priority. Out-of-range indices never
occur in the algorithm; they compare as `false`. -/
def lessIdx {α : Type} (key : α → Int) (l : List α) (i j : Nat) : Bool :=
  match l[i]?, l[j]? with
  | some x, some y => decide (key y < key x)
  | _, _ => false

/-- Go `data.Swap(i, j)` on a slice. -/
def swp {α : Type} (l : List α) (i j : Nat) : List α :=
  match l[i]?, l[j]? with
  | some x, some y => (l.set i y).set j x
  | _, _ => l

/-- Inner loop of Go `insertionSort_func`:
`for j := i; j > a && data.Less(j, j-1); j-- { data.Swap(j, j-1) }`. -/
def insInner {α : Type} (key : α → Int) (a : Nat) : List α → Nat → List α
  | l, 0 => l
  | l, j + 1 =>
    if a < j + 1 ∧ lessIdx key l (j + 1) j then insInner key a (swp l (j + 1) j) j
    else l

/-- Outer loop of Go `insertionSort_func`: `for i := a + 1; i < b; i++`. -/
def insOuter {α : Type} (key : α → Int) (a b : Nat) : List α → Nat → Nat → List α
  | l, _, 0 => l
  | l, i, fuel + 1 =>
    if i < b then insOuter key a b (insInner key a l i) (i + 1) fuel
    else l

/-- Go `insertionSort_func(data, a, b)`. -/
def insertionSortFunc {α : Type} (key : α → Int) (l : List α) (a b : Nat) : List α :=
  insOuter key a b l (a + 1) (b - a)

/-- Loop of Go `siftDown_func`: walk the heap from `root` downwards. -/
def siftDownLoop {α : Type} (key : α → Int) (hi first : Nat) : List α → Nat → Nat → List α
  | l, _, 0 => l
  | l, root, fuel + 1 =>
    let child := 2 * root + 1
    if child ≥ hi then l
    else
      let child := if child + 1 < hi ∧ lessIdx key l (first + child) (first + child + 1) then child + 1 else child
      if ¬ lessIdx key l (first + root) (first + child) then l
      else siftDownLoop key hi first (swp l (first + root) (first + child)) child fuel

/-- Go `siftDown_func(data, lo, hi, first)`. -/
def siftDownFunc {α : Type} (key : α → Int) (l : List α) (lo hi first : Nat) : List α :=
  siftDownLoop key hi first l lo (hi + 1)

/-- Heap-construction loop of Go `heapSort_func`:
`for i := (hi - 1) / 2; i >= 0; i--`. -/
def heapBuildLoop {α : Type} (key : α → Int) (hi first : Nat) : List α → Nat → List α
  | l, 0 => l
  | l, i + 1 => heapBuildLoop key hi first (siftDownFunc key l i hi first) i

/-- Pop loop of Go `heapSort_func`: `for i := hi - 1; i >= 0; i--`. -/
def heapPopLoop {α : Type} (key : α → Int) (first : Nat) : List α → Nat → List α
  | l, 0 => l
  | l, i + 1 => heapPopLoop key first (siftDownFunc key (swp l first (first + i)) 0 i first) i

/-- Go `heapSort_func(data, a, b)`. -/
def heapSortFunc {α : Type} (key : α → Int) (l : List α) (a b : Nat) : List α :=
  let first := a
  let hi := b - a
  heapPopLoop key first (heapBuildLoop key hi first l ((hi - 1) / 2 + 1)) hi

/-- Go `reverseRange_func`'s loop. -/
def reverseLoop {α : Type} : List α → Nat → Nat → Nat → List α
  | l, _, _, 0 => l
  | l, i, j, fuel + 1 => if i < j then reverseLoop (swp l i j) (i + 1) (j - 1) fuel else l

/-- Go `reverseRange_func(data, a, b)`. -/
def reverseRangeFunc {α : Type} (l : List α) (a b : Nat) : List α :=
  reverseLoop l a (b - 1) b

/-- Hints returned by Go `choosePivot_func`. -/
inductive Hint where
  | increasing
  | decreasing
  | unknown
deriving Repr, DecidableEq

/-- Go `order2_func`: order two indices by the data they point at, counting
swaps. No data is moved. -/
def order2 {α : Type} (key : α → Int) (l : List α) (a b swaps : Nat) : Nat × Nat × Nat :=
  if lessIdx key l b a then (b, a, swaps + 1) else (a, b, swaps)

/-- Go `median_func`: index of the median of three positions. -/
def median3 {α : Type} (key : α → Int) (l : List α) (a b c swaps : Nat) : Nat × Nat :=
  let (a, b, s) := order2 key l a b swaps
  let (b, _, s) := order2 key l b c s
  let (_, b, s) := order2 key l a b s
  (b, s)

/-- Go `medianAdjacent_func`: median of `{a-1, a, a+1}`. -/
def medianAdjacent {α : Type} (key : α → Int) (l : List α) (a swaps : Nat) : Nat × Nat :=
  median3 key l (a - 1) a (a + 1) swaps

/-- Go `choosePivot_func(data, a, b)`: static pivot below length 8,
median-of-three up to 49, Tukey ninther beyond. -/
def choosePivot {α : Type} (key : α → Int) (l : List α) (a b : Nat) : Nat × Hint :=
  let len := b - a
  let i := a + len / 4 * 1
  let j := a + len / 4 * 2
  let k := a + len / 4 * 3
  if len ≥ 8 then
    let (i, j, k, swaps) :=
      if len ≥ 50 then
        let (i, s) := medianAdjacent key l i 0
        let (j, s) := medianAdjacent key l j s
        let (k, s) := medianAdjacent key l k s
        (i, j, k, s)
      else (i, j, k, 0)
    let (j, swaps) := median3 key l i j k swaps
    if swaps = 0 then (j, Hint.increasing)
    else if swaps = 12 then (j, Hint.decreasing)
    else (j, Hint.unknown)
  else (j, Hint.increasing)

/-- Go `partition_func`'s forward scan: `for i <= j && data.Less(i, a) { i++ }`. -/
def scanLess {α : Type} (key : α → Int) (l : List α) (a j : Nat) : Nat → Nat → Nat
  | i, 0 => i
  | i, fuel + 1 =>
    if i ≤ j ∧ lessIdx key l i a then scanLess key l a j (i + 1) fuel else i

/-- Go `partition_func`'s backward scan: `for i <= j && !data.Less(j, a) { j-- }`. -/
def scanNotLess {α : Type} (key : α → Int) (l : List α) (a i : Nat) : Nat → Nat → Nat
  | j, 0 => j
  | j, fuel + 1 =>
    if i ≤ j ∧ ¬ lessIdx key l j a then scanNotLess key l a i (j - 1) fuel else j

/-- Main loop of Go `partition_func`. -/
def partLoop {α : Type} (key : α → Int) (a b : Nat) : List α → Nat → Nat → Nat → List α × Nat
  | l, _, j, 0 => (l, j)
  | l, i, j, fuel + 1 =>
    let i := scanLess key l a j i b
    let j := scanNotLess key l a i j b
    if i > j then (l, j)
    else partLoop key a b (swp l i j) (i + 1) (j - 1) fuel

/-- Go `partition_func(data, a, b, pivot)`: returns the final slice, the new
pivot position, and whether the range was already partitioned. -/
def partitionFunc {α : Type} (key : α → Int) (l : List α) (a b pivot : Nat) :
    List α × Nat × Bool :=
  let l := swp l a pivot
  let i := scanLess key l a (b - 1) (a + 1) b
  let j := scanNotLess key l a i (b - 1) b
  if i > j then (swp l j a, j, true)
  else
    let l := swp l i j
    let res := partLoop key a b l (i + 1) (j - 1) b
    (swp res.1 res.2 a, res.2, false)

/-- Go `partitionEqual_func`'s forward scan: `for i <= j && !data.Less(a, i) { i++ }`. -/
def scanNotLessP {α : Type} (key : α → Int) (l : List α) (a j : Nat) : Nat → Nat → Nat
  | i, 0 => i
  | i, fuel + 1 =>
    if i ≤ j ∧ ¬ lessIdx key l a i then scanNotLessP key l a j (i + 1) fuel else i

/-- Go `partitionEqual_func`'s backward scan: `for i <= j && data.Less(a, j) { j-- }`. -/
def scanLessP {α : Type} (key : α → Int) (l : List α) (a i : Nat) : Nat → Nat → Nat
  | j, 0 => j
  | j, fuel + 1 =>
    if i ≤ j ∧ lessIdx key l a j then scanLessP key l a i (j - 1) fuel else j

/-- Loop of Go `partitionEqual_func`. -/
def partEqLoop {α : Type} (key : α → Int) (a b : Nat) : List α → Nat → Nat → Nat → List α × Nat
  | l, i, _, 0 => (l, i)
  | l, i, j, fuel + 1 =>
    let i := scanNotLessP key l a j i b
    let j := scanLessP key l a i j b
    if i > j then (l, i)
    else partEqLoop key a b (swp l i j) (i + 1) (j - 1) fuel

/-- Go `partitionEqual_func(data, a, b, pivot)`: moves elements equal to the
pivot to the front of the range, returning the first index past them. -/
def partitionEqualFunc {α : Type} (key : α → Int) (l : List α) (a b pivot : Nat) :
    List α × Nat :=
  let l := swp l a pivot
  partEqLoop key a b l (a + 1) (b - 1) b

/-- Scan of Go `partialInsertionSort_func`:
`for i < b && !data.Less(i, i-1) { i++ }`. -/
def pisScan {α : Type} (key : α → Int) (l : List α) (b : Nat) : Nat → Nat → Nat
  | i, 0 => i
  | i, fuel + 1 =>
    if i < b ∧ ¬ lessIdx key l i (i - 1) then pisScan key l b (i + 1) fuel else i

/-- Left shift of Go `partialInsertionSort_func`:
`for j := i - 1; j >= a+1; j--`. -/
def pisShiftLeft {α : Type} (key : α → Int) (a : Nat) : List α → Nat → List α
  | l, 0 => l
  | l, j + 1 =>
    if a + 1 ≤ j + 1 then
      if ¬ lessIdx key l (j + 1) j then l
      else pisShiftLeft key a (swp l (j + 1) j) j
    else l

/-- Right shift of Go `partialInsertionSort_func`: `for j := i + 1; j < b; j++`. -/
def pisShiftRight {α : Type} (key : α → Int) (b : Nat) : List α → Nat → Nat → List α
  | l, _, 0 => l
  | l, j, fuel + 1 =>
    if j < b then
      if ¬ lessIdx key l j (j - 1) then l
      else pisShiftRight key b (swp l j (j - 1)) (j + 1) fuel
    else l

/-- Outer loop of Go `partialInsertionSort_func` (`maxSteps = 5` rounds,
`shortestShifting = 50`). -/
def pisLoop {α : Type} (key : α → Int) (a b : Nat) : List α → Nat → Nat → List α × Bool
  | l, _, 0 => (l, false)
  | l, i, steps + 1 =>
    let i := pisScan key l b i b
    if i = b then (l, true)
    else if b - a < 50 then (l, false)
    else
      let l := swp l i (i - 1)
      let l := if i - a ≥ 2 then pisShiftLeft key a l (i - 1) else l
      let l := if b - i ≥ 2 then pisShiftRight key b l (i + 1) (b - i) else l
      pisLoop key a b l i steps

/-- Go `partialInsertionSort_func(data, a, b)`. -/
def partialInsertionSortFunc {α : Type} (key : α → Int) (l : List α) (a b : Nat) :
    List α × Bool :=
  pisLoop key a b l (a + 1) 5

/-- Go `sort.xorshift.Next`: 64-bit xorshift step, returning the new state
(used both as the drawn value and the next seed). -/
def xorshiftNext (r : Nat) : Nat :=
  let r := (r ^^^ (r <<< 13)) % 2 ^ 64
  let r := r ^^^ (r >>> 7)
  let r := (r ^^^ (r <<< 17)) % 2 ^ 64
  r

/-- Go `sort.nextPowerOfTwo`. -/
def nextPowerOfTwo (length : Nat) : Nat := 1 <<< bitsLen length

/-- Reduction of one xorshift draw into a swap target, Go `breakPatterns_func`
loop body: `other := int(uint(random.Next()) % modulus); if other >= length
{ other -= length }`. -/
def bpOther (modulus length r : Nat) : Nat :=
  let other := r % modulus
  if other ≥ length then other - length else other

/-- Go `breakPatterns_func(data, a, b)`: swap the three positions around the
midpoint with pseudo-random positions drawn from an xorshift generator seeded
with the range length (the three loop iterations are unrolled). -/
def breakPatternsFunc {α : Type} (l : List α) (a b : Nat) : List α :=
  let length := b - a
  if length ≥ 8 then
    let modulus := nextPowerOfTwo length
    let idx := a + length / 4 * 2 - 1
    let r1 := xorshiftNext length
    let l := swp l (idx + 0) (a + bpOther modulus length r1)
    let r2 := xorshiftNext r1
    let l := swp l (idx + 1) (a + bpOther modulus length r2)
    let r3 := xorshiftNext r2
    swp l (idx + 2) (a + bpOther modulus length r3)
  else l

/-- The pattern-breaking / pivot-selection / partial-insertion prelude of one
`pdqsort_func` loop iteration (the statements between the heapsort fallback
and the `partitionEqual` check). Returns the possibly mutated slice, the
chosen pivot position (after the reversal adjustment), and whether
`partialInsertionSort` certified the range sorted. -/
def pdqSetup {α : Type} (key : α → Int) (l : List α) (a b : Nat)
    (wasBalanced wasPartitioned : Bool) : List α × Nat × Bool :=
  let l1 := if ¬ wasBalanced then breakPatternsFunc l a b else l
  let pv := choosePivot key l1 a b
  let l2 := if pv.2 = Hint.decreasing then reverseRangeFunc l1 a b else l1
  let pivot := if pv.2 = Hint.decreasing then (b - 1) - (pv.1 - a) else pv.1
  let hint := if pv.2 = Hint.decreasing then Hint.increasing else pv.2
  let pr :=
    if wasBalanced ∧ wasPartitioned ∧ hint = Hint.increasing then
      partialInsertionSortFunc key l2 a b
    else (l2, false)
  (pr.1, pivot, pr.2)

/-- Go `pdqsort_func(data, a, b, limit)`. The `for` loop and the recursive
call on the shorter side are both fuelled; a fresh recursive call restarts
with `wasBalanced = wasPartitioned = true` exactly as the Go locals do. -/
def pdqLoop {α : Type} (key : α → Int) :
    List α → Nat → Nat → Nat → Bool → Bool → Nat → List α
  | l, _, _, _, _, _, 0 => l
  | l, a, b, limit, wasBalanced, wasPartitioned, fuel + 1 =>
    let length := b - a
    if length ≤ 12 then insertionSortFunc key l a b
    else if limit = 0 then heapSortFunc key l a b
    else
      let limit1 := if ¬ wasBalanced then limit - 1 else limit
      let ps := pdqSetup key l a b wasBalanced wasPartitioned
      let pivot := ps.2.1
      if ps.2.2 then ps.1
      else if 0 < a ∧ ¬ lessIdx key ps.1 (a - 1) pivot then
        let pe := partitionEqualFunc key ps.1 a b pivot
        pdqLoop key pe.1 pe.2 b limit1 wasBalanced wasPartitioned fuel
      else
        let pt := partitionFunc key ps.1 a b pivot
        let mid := pt.2.1
        let wasBalanced2 := decide (min (mid - a) (b - mid) ≥ length / 8)
        if mid - a < b - mid then
          pdqLoop key (pdqLoop key pt.1 a mid limit1 true true fuel)
            (mid + 1) b limit1 wasBalanced2 pt.2.2 fuel
        else
          pdqLoop key (pdqLoop key pt.1 (mid + 1) b limit1 true true fuel)
            a mid limit1 wasBalanced2 pt.2.2 fuel

/-- Go `sort.Slice(x, less)` on a whole slice: `pdqsort(data, 0, n, bits.Len(uint(n)))`. -/
def sortSliceList {α : Type} (key : α → Int) (l : List α) : List α :=
  pdqLoop key l 0 l.length (bitsLen l.length) true true (l.length + 16)

/-- Functional description of one pass of the `insertionSort_func` inner loop:
insert `x` into `acc` from the right, moving it left past exactly the maximal
suffix of elements whose key is strictly below `key x`. Used to relate the
index-level loops to list-level sortedness and stability statements. -/
def goInsert {α : Type} (key : α → Int) (acc : List α) (x : α) : List α :=
  let p := fun y => decide (key y < key x)
  (acc.reverse.dropWhile p).reverse ++ x :: (acc.reverse.takeWhile p).reverse

end GoSort

/-- The `sort.Slice` call of `processNextBlock`, comparing by `Priority`
(higher first). -/
def sortTransactions (txs : List Transaction) : List Transaction :=
  GoSort.sortSliceList (fun t => t.priority) txs

namespace Processor

/-- `processor.Config`. The callback function value is modelled by its
presence (`hasBlockCallback`); `Interval` is a `time.Duration` in nanoseconds. -/
structure Config where
  interval : Int
  hasBlockCallback : Bool
  maxStoredBlocks : Int
  enableTDXQuote : Bool
deriving Repr, DecidableEq, Inhabited

/-- `processor.DefaultConfig`: 250ms interval, 100 stored blocks, no TDX. -/
def DefaultConfig : Config :=
  { interval := 250000000, hasBlockCallback := false, maxStoredBlocks := 100,
    enableTDXQuote := false }

/-- `processor.BlockProcessor`: the mempool it drains, the chain pointer, the
bounded history, the config, and whether a TDX provider was initialized. -/
structure BlockProcessor where
  pool : List Transaction
  latestBlockID : String
  processedBlocks : List Block
  config : Config
  hasTdxProvider : Bool
deriving Repr, DecidableEq, Inhabited

/-- `processor.New(mempool, config)`: nil config falls back to the default;
when TDX quoting is requested, a failing provider initialization (`tdxInitOk
= false`) downgrades `EnableTDXQuote` instead of failing construction. Note
that `New` performs no validation of `Interval` or `MaxStoredBlocks`. -/
def New (tdxInitOk : Bool) (pool : List Transaction) (config : Option Config) :
    BlockProcessor :=
  let cfg := config.getD DefaultConfig
  let bp : BlockProcessor :=
    { pool := pool, latestBlockID := "", processedBlocks := [], config := cfg,
      hasTdxProvider := false }
  if cfg.enableTDXQuote then
    if tdxInitOk then { bp with hasTdxProvider := true }
    else { bp with config := { cfg with enableTDXQuote := false } }
  else bp

/-- The `time.NewTicker(bp.config.Interval)` call at the top of
`(*BlockProcessor).Start`. Modelled from the Go standard library's documented
behaviour: `NewTicker` panics if the duration is not positive, so `Start`
fails before its loop runs; for a positive interval the loop starts. -/
def startTicker (interval : Int) : Except String Unit :=
  if interval ≤ 0 then Except.error "non-positive interval for NewTicker"
  else Except.ok ()

/-- One cycle's externally visible outcome: the new processor state, the
block constructed (if any), and the invocations of the completion callback. -/
structure CycleOutput where
  state : BlockProcessor
  produced : Option Block
  callbacks : List Block
deriving Repr, DecidableEq

/-- History truncation step of `processNextBlock`:
`if len(pb) > max { pb = pb[len(pb)-max:] }`. -/
def trimBlocks (maxStored : Int) (pb : List Block) : List Block :=
  if (pb.length : Int) > maxStored then pb.drop ((pb.length : Int) - maxStored).toNat
  else pb

/-- `(*BlockProcessor).processNextBlock`, one synchronous cycle: snapshot the
mempool, skip when empty, sort by priority with `sort.Slice`, build the block,
optionally attach a TDX quote (`tdxGetQuote` returns `none` on error), advance
the chain pointer, append to and trim the history, remove the batched ids from
the mempool, and invoke the callback when configured. `now` is the cycle's
timestamp string. -/
def processNextBlock (sha256 : List UInt8 → List UInt8)
    (tdxGetQuote : String → Option (List UInt8))
    (bp : BlockProcessor) (now : String) : CycleOutput :=
  let transactions := Mempool.GetAllTransactions bp.pool
  if transactions.length = 0 then
    { state := bp, produced := none, callbacks := [] }
  else
    let sorted := sortTransactions transactions
    let block := NewBlock sha256 sorted bp.latestBlockID now
    let block :=
      if bp.config.enableTDXQuote ∧ bp.hasTdxProvider then
        match tdxGetQuote block.id with
        | some quote => { block with tdxQuote := some quote }
        | none => block
      else block
    let bp := { bp with latestBlockID := block.id }
    let bp := { bp with processedBlocks := trimBlocks bp.config.maxStoredBlocks (bp.processedBlocks ++ [block]) }
    let txIDs := sorted.map (fun t => t.id)
    let bp := { bp with pool := Mempool.RemoveTransactions bp.pool txIDs }
    { state := bp, produced := some block,
      callbacks := if bp.config.hasBlockCallback then [block] else [] }

/-- A sequence of builder cycles. Before each tick the mempool contents are an
arbitrary input (producers insert concurrently between ticks), as is the
tick's timestamp string; the cycles themselves run sequentially. Returns the
final state and the blocks produced, in production order. -/
def runCycles (sha256 : List UInt8 → List UInt8)
    (tdxGetQuote : String → Option (List UInt8)) :
    BlockProcessor → List (List Transaction × String) → BlockProcessor × List Block
  | bp, [] => (bp, [])
  | bp, (pool, now) :: rest =>
    let out := processNextBlock sha256 tdxGetQuote { bp with pool := pool } now
    let res := runCycles sha256 tdxGetQuote out.state rest
    (res.1, out.produced.toList ++ res.2)

/-- `blocks` is a `prevBlockID`-chained sequence whose first block points at
`prev`: each block's `prevBlockID` is the id of its predecessor. -/
def ChainFrom (prev : String) : List Block → Prop
  | [] => True
  | b :: rest => b.prevBlockID = prev ∧ ChainFrom b.id rest

end Processor

namespace LoopModel

/-- Events of the `Start` loop in `internal/processor/processor.go`: a ticker
delivery (`case <-ticker.C`) and the completion of a previously spawned
processing goroutine. -/
inductive LoopEvent where
  | tick
  | finish (id : Nat)
deriving Repr, DecidableEq

/-- In-flight `processNextBlock` goroutines of the `Start` loop, identified by
spawn order. -/
structure LoopState where
  running : List Nat
  spawned : Nat
deriving Repr, DecidableEq

/-- One step of the `Start` loop. On a ticker delivery the loop executes
`go bp.processNextBlock()` unconditionally — it spawns a new goroutine without
waiting for, or checking on, earlier ones. `finish` retires a running
goroutine. -/
def loopStep (s : LoopState) : LoopEvent → LoopState
  | LoopEvent.tick => { running := s.spawned :: s.running, spawned := s.spawned + 1 }
  | LoopEvent.finish i => { s with running := s.running.erase i }

/-- The `Start` loop consuming a sequence of events from the initial state. -/
def runLoop (events : List LoopEvent) : LoopState :=
  events.foldl loopStep { running := [], spawned := 0 }

end LoopModel

/-! Concrete inputs used by the counterexample and witness theorems below. -/

/-- A transaction with the given id and priority and zero-valued provenance
fields, as a producer using `model.NewTransaction` would hold it. -/
def mkTx (i : String) (p : Int) : Transaction :=
  { id := i, data := [], priority := p, timestamp := "", fromAddr := "",
    toAddr := "", value := none, gasPrice := none, gasLimit := 0, nonce := 0,
    rawData := "" }

/-- A concrete stand-in for the SHA-256 digest function (the claims settled on
concrete inputs do not depend on the digest's value). -/
def sha0 : List UInt8 → List UInt8 := fun _ => []

/-- A TDX provider whose quote request always fails. -/
def tdx0 : String → Option (List UInt8) := fun _ => none

/-- A 13-transaction mempool iteration order: ids `A`–`M` with priorities
drawn from {1, 5, 9}. Thirteen elements exceed `sort.Slice`'s insertion-sort
cutoff (12), so the pdqsort partitioning path runs. -/
def cePool : List Transaction :=
  [mkTx "A" 1, mkTx "B" 9, mkTx "F" 5, mkTx "C" 9, mkTx "D" 9, mkTx "G" 9,
   mkTx "E" 5, mkTx "H" 1, mkTx "I" 1, mkTx "J" 5, mkTx "K" 1, mkTx "L" 1,
   mkTx "M" 1]

/-- A fresh processor holding `cePool`. -/
def ceBP : Processor.BlockProcessor :=
  { pool := cePool, latestBlockID := "", processedBlocks := [],
    config := Processor.DefaultConfig, hasTdxProvider := false }

/-- The block the cycle on `cePool` constructs. -/
def ceBlock : Block :=
  (Processor.processNextBlock sha0 tdx0 ceBP "t").produced.getD default

/-- A configuration with a non-positive tick interval. -/
def badConfig : Processor.Config :=
  { interval := -1, hasBlockCallback := false, maxStoredBlocks := 100,
    enableTDXQuote := false }

/-- The specification's scenario pool: priorities 5, 50, 10. -/
def wPool : List Transaction := [mkTx "a" 5, mkTx "b" 50, mkTx "c" 10]

/-- A fresh processor holding `wPool`. -/
def wBP : Processor.BlockProcessor :=
  { pool := wPool, latestBlockID := "", processedBlocks := [],
    config := Processor.DefaultConfig, hasTdxProvider := false }

/-- The block the cycle on `wPool` constructs. -/
def wBlock : Block :=
  (Processor.processNextBlock sha0 tdx0 wBP "t").produced.getD default

/-- A two-transaction pool for the conservation witness. -/
def w2Pool : List Transaction := [mkTx "x" 1, mkTx "y" 2]

/-- A fresh processor holding `w2Pool`. -/
def w2BP : Processor.BlockProcessor :=
  { pool := w2Pool, latestBlockID := "", processedBlocks := [],
    config := Processor.DefaultConfig, hasTdxProvider := false }

/-- The block the cycle on `w2Pool` constructs. -/
def w2Block : Block :=
  (Processor.processNextBlock sha0 tdx0 w2BP "t").produced.getD default

/-- A processor with an empty pool. -/
def eBP : Processor.BlockProcessor :=
  { pool := [], latestBlockID := "prev", processedBlocks := [],
    config := Processor.DefaultConfig, hasTdxProvider := false }

/-- A configuration retaining at most two blocks. -/
def cfg2 : Processor.Config :=
  { interval := 250000000, hasBlockCallback := false, maxStoredBlocks := 2,
    enableTDXQuote := false }

/-! ### Permutation layer: every `sort.Slice` subroutine only rearranges. -/

namespace GoSort

theorem cons_set_perm {α : Type} (t : List α) (k : Nat) (a y : α)
    (h : t[k]? = some y) : List.Perm (y :: t.set k a) (a :: t) := by
  obtain ⟨hk, hy⟩ := List.getElem?_eq_some.mp h
  rw [List.set_eq_take_cons_drop a hk]
  conv_rhs => rw [← List.take_append_drop k t, List.drop_eq_getElem_cons hk, hy]
  have h1 : List.Perm (t.take k ++ a :: t.drop (k + 1))
      (a :: (t.take k ++ t.drop (k + 1))) := List.perm_middle
  have h2 : List.Perm (t.take k ++ y :: t.drop (k + 1))
      (y :: (t.take k ++ t.drop (k + 1))) := List.perm_middle
  exact ((h1.cons y).trans (List.Perm.swap a y _)).trans (h2.cons a).symm

theorem setset_perm {α : Type} :
    ∀ (l : List α) (i j : Nat) (x y : α), l[i]? = some x → l[j]? = some y →
      List.Perm ((l.set i y).set j x) l
  | [], i, _, _, _, hi, _ => by simp at hi
  | a :: t, 0, 0, x, y, hi, hj => by
    simp only [List.getElem?_cons_zero, Option.some.injEq] at hi hj
    simp [← hi, ← hj]
  | a :: t, 0, m + 1, x, y, hi, hj => by
    simp only [List.getElem?_cons_zero, Option.some.injEq] at hi
    simp only [List.getElem?_cons_succ] at hj
    simpa [← hi] using cons_set_perm t m a y hj
  | a :: t, k + 1, 0, x, y, hi, hj => by
    simp only [List.getElem?_cons_zero, Option.some.injEq] at hj
    simp only [List.getElem?_cons_succ] at hi
    simpa [← hj] using cons_set_perm t k a x hi
  | a :: t, k + 1, m + 1, x, y, hi, hj => by
    simp only [List.getElem?_cons_succ] at hi hj
    simpa using (setset_perm t k m x y hi hj).cons a

theorem swp_perm {α : Type} (l : List α) (i j : Nat) : List.Perm (swp l i j) l := by
  unfold swp
  cases hi : l[i]? with
  | none => exact List.Perm.refl l
  | some x =>
    cases hj : l[j]? with
    | none => exact List.Perm.refl l
    | some y => exact setset_perm l i j x y hi hj

theorem insInner_perm {α : Type} (key : α → Int) (a : Nat) :
    ∀ (j : Nat) (l : List α), List.Perm (insInner key a l j) l
  | 0, l => List.Perm.refl l
  | j + 1, l => by
    unfold insInner
    split
    · exact (insInner_perm key a j _).trans (swp_perm l (j + 1) j)
    · exact List.Perm.refl l

theorem insOuter_perm {α : Type} (key : α → Int) (a b : Nat) :
    ∀ (fuel : Nat) (l : List α) (i : Nat), List.Perm (insOuter key a b l i fuel) l
  | 0, l, _ => List.Perm.refl l
  | fuel + 1, l, i => by
    unfold insOuter
    split
    · exact (insOuter_perm key a b fuel _ _).trans (insInner_perm key a i l)
    · exact List.Perm.refl l

theorem insertionSortFunc_perm {α : Type} (key : α → Int) (l : List α) (a b : Nat) :
    List.Perm (insertionSortFunc key l a b) l :=
  insOuter_perm key a b (b - a) l (a + 1)

theorem siftDownLoop_perm {α : Type} (key : α → Int) (hi first : Nat) :
    ∀ (fuel : Nat) (l : List α) (root : Nat),
      List.Perm (siftDownLoop key hi first l root fuel) l
  | 0, l, _ => List.Perm.refl l
  | fuel + 1, l, root => by
    unfold siftDownLoop
    dsimp only
    split
    · exact List.Perm.refl l
    · split <;> split
      · exact List.Perm.refl l
      · exact (siftDownLoop_perm key hi first fuel _ _).trans (swp_perm l _ _)
      · exact List.Perm.refl l
      · exact (siftDownLoop_perm key hi first fuel _ _).trans (swp_perm l _ _)

theorem siftDownFunc_perm {α : Type} (key : α → Int) (l : List α) (lo hi first : Nat) :
    List.Perm (siftDownFunc key l lo hi first) l :=
  siftDownLoop_perm key hi first (hi + 1) l lo

theorem heapBuildLoop_perm {α : Type} (key : α → Int) (hi first : Nat) :
    ∀ (i : Nat) (l : List α), List.Perm (heapBuildLoop key hi first l i) l
  | 0, l => List.Perm.refl l
  | i + 1, l =>
    (heapBuildLoop_perm key hi first i _).trans (siftDownFunc_perm key l i hi first)

theorem heapPopLoop_perm {α : Type} (key : α → Int) (first : Nat) :
    ∀ (i : Nat) (l : List α), List.Perm (heapPopLoop key first l i) l
  | 0, l => List.Perm.refl l
  | i + 1, l =>
    (heapPopLoop_perm key first i _).trans
      ((siftDownFunc_perm key _ 0 i first).trans (swp_perm l first (first + i)))

theorem heapSortFunc_perm {α : Type} (key : α → Int) (l : List α) (a b : Nat) :
    List.Perm (heapSortFunc key l a b) l :=
  (heapPopLoop_perm key a (b - a) _).trans
    (heapBuildLoop_perm key (b - a) a ((b - a - 1) / 2 + 1) l)

theorem reverseLoop_perm {α : Type} :
    ∀ (fuel : Nat) (l : List α) (i j : Nat), List.Perm (reverseLoop l i j fuel) l
  | 0, l, _, _ => List.Perm.refl l
  | fuel + 1, l, i, j => by
    unfold reverseLoop
    split
    · exact (reverseLoop_perm fuel _ _ _).trans (swp_perm l i j)
    · exact List.Perm.refl l

theorem reverseRangeFunc_perm {α : Type} (l : List α) (a b : Nat) :
    List.Perm (reverseRangeFunc l a b) l :=
  reverseLoop_perm b l a (b - 1)

theorem partLoop_perm {α : Type} (key : α → Int) (a b : Nat) :
    ∀ (fuel : Nat) (l : List α) (i j : Nat),
      List.Perm (partLoop key a b l i j fuel).1 l
  | 0, l, _, _ => List.Perm.refl l
  | fuel + 1, l, i, j => by
    unfold partLoop
    dsimp only
    split
    · exact List.Perm.refl l
    · exact (partLoop_perm key a b fuel _ _ _).trans (swp_perm l _ _)

theorem partitionFunc_perm {α : Type} (key : α → Int) (l : List α) (a b pivot : Nat) :
    List.Perm (partitionFunc key l a b pivot).1 l := by
  unfold partitionFunc
  dsimp only
  split
  · exact (swp_perm _ _ _).trans (swp_perm l a pivot)
  · exact ((swp_perm _ _ _).trans
      ((partLoop_perm key a b b _ _ _).trans (swp_perm _ _ _))).trans
      (swp_perm l a pivot)

theorem partEqLoop_perm {α : Type} (key : α → Int) (a b : Nat) :
    ∀ (fuel : Nat) (l : List α) (i j : Nat),
      List.Perm (partEqLoop key a b l i j fuel).1 l
  | 0, l, _, _ => List.Perm.refl l
  | fuel + 1, l, i, j => by
    unfold partEqLoop
    dsimp only
    split
    · exact List.Perm.refl l
    · exact (partEqLoop_perm key a b fuel _ _ _).trans (swp_perm l _ _)

theorem partitionEqualFunc_perm {α : Type} (key : α → Int) (l : List α) (a b pivot : Nat) :
    List.Perm (partitionEqualFunc key l a b pivot).1 l :=
  (partEqLoop_perm key a b b _ (a + 1) (b - 1)).trans (swp_perm l a pivot)

theorem pisShiftLeft_perm {α : Type} (key : α → Int) (a : Nat) :
    ∀ (j : Nat) (l : List α), List.Perm (pisShiftLeft key a l j) l
  | 0, l => List.Perm.refl l
  | j + 1, l => by
    unfold pisShiftLeft
    split
    · split
      · exact List.Perm.refl l
      · exact (pisShiftLeft_perm key a j _).trans (swp_perm l (j + 1) j)
    · exact List.Perm.refl l

theorem pisShiftRight_perm {α : Type} (key : α → Int) (b : Nat) :
    ∀ (fuel : Nat) (l : List α) (j : Nat), List.Perm (pisShiftRight key b l j fuel) l
  | 0, l, _ => List.Perm.refl l
  | fuel + 1, l, j => by
    unfold pisShiftRight
    split
    · split
      · exact List.Perm.refl l
      · exact (pisShiftRight_perm key b fuel _ _).trans (swp_perm l j (j - 1))
    · exact List.Perm.refl l

theorem pisLoop_perm {α : Type} (key : α → Int) (a b : Nat) :
    ∀ (steps : Nat) (l : List α) (i : Nat), List.Perm (pisLoop key a b l i steps).1 l
  | 0, l, _ => List.Perm.refl l
  | steps + 1, l, i => by
    unfold pisLoop
    dsimp only
    split
    · exact List.Perm.refl l
    · split
      · exact List.Perm.refl l
      · have h1 : List.Perm (swp l (pisScan key l b i b) (pisScan key l b i b - 1)) l :=
          swp_perm l _ _
        refine (pisLoop_perm key a b steps _ _).trans ?_
        split
        · refine (pisShiftRight_perm key b _ _ _).trans ?_
          split
          · exact (pisShiftLeft_perm key a _ _).trans h1
          · exact h1
        · split
          · exact (pisShiftLeft_perm key a _ _).trans h1
          · exact h1

theorem partialInsertionSortFunc_perm {α : Type} (key : α → Int) (l : List α) (a b : Nat) :
    List.Perm (partialInsertionSortFunc key l a b).1 l :=
  pisLoop_perm key a b 5 l (a + 1)

theorem breakPatternsFunc_perm {α : Type} (l : List α) (a b : Nat) :
    List.Perm (breakPatternsFunc l a b) l := by
  unfold breakPatternsFunc
  dsimp only
  split
  · exact ((swp_perm _ _ _).trans (swp_perm _ _ _)).trans (swp_perm l _ _)
  · exact List.Perm.refl l

theorem pdqSetupTail_perm {α : Type} (key : α → Int) (l1 l : List α) (a b : Nat)
    (wasBalanced wasPartitioned : Bool) (h : List.Perm l1 l) :
    List.Perm
      (if wasBalanced ∧ wasPartitioned ∧
          (if (choosePivot key l1 a b).2 = Hint.decreasing then Hint.increasing
           else (choosePivot key l1 a b).2) = Hint.increasing then
        partialInsertionSortFunc key
          (if (choosePivot key l1 a b).2 = Hint.decreasing then
            reverseRangeFunc l1 a b
          else l1) a b
      else
        ((if (choosePivot key l1 a b).2 = Hint.decreasing then
            reverseRangeFunc l1 a b
          else l1), false)).1 l := by
  split
  · have h2 := (reverseRangeFunc_perm l1 a b).trans h
    split
    · exact (partialInsertionSortFunc_perm key _ a b).trans h2
    · exact h2
  · split
    · exact (partialInsertionSortFunc_perm key _ a b).trans h
    · exact h

theorem pdqSetup_perm {α : Type} (key : α → Int) (l : List α) (a b : Nat)
    (wasBalanced wasPartitioned : Bool) :
    List.Perm (pdqSetup key l a b wasBalanced wasPartitioned).1 l := by
  unfold pdqSetup
  dsimp only
  split
  · exact pdqSetupTail_perm key _ l a b _ _ (breakPatternsFunc_perm l a b)
  · exact pdqSetupTail_perm key _ l a b _ _ (List.Perm.refl l)

set_option maxHeartbeats 1000000 in
theorem pdqLoop_perm {α : Type} (key : α → Int) :
    ∀ (fuel : Nat) (l : List α) (a b limit : Nat) (wasBalanced wasPartitioned : Bool),
      List.Perm (pdqLoop key l a b limit wasBalanced wasPartitioned fuel) l
  | 0, l, _, _, _, _, _ => List.Perm.refl l
  | fuel + 1, l, a, b, limit, wasBalanced, wasPartitioned => by
    unfold pdqLoop
    dsimp only
    split
    · exact insertionSortFunc_perm key l a b
    · split
      · exact heapSortFunc_perm key l a b
      · split
        · exact pdqSetup_perm key l a b wasBalanced wasPartitioned
        · split
          · exact (pdqLoop_perm key fuel _ _ _ _ _ _).trans
              ((partitionEqualFunc_perm key _ a b _).trans
                (pdqSetup_perm key l a b wasBalanced wasPartitioned))
          · split
            · exact (pdqLoop_perm key fuel _ _ _ _ _ _).trans
                ((pdqLoop_perm key fuel _ _ _ _ _ _).trans
                  ((partitionFunc_perm key _ a b _).trans
                    (pdqSetup_perm key l a b wasBalanced wasPartitioned)))
            · exact (pdqLoop_perm key fuel _ _ _ _ _ _).trans
                ((pdqLoop_perm key fuel _ _ _ _ _ _).trans
                  ((partitionFunc_perm key _ a b _).trans
                    (pdqSetup_perm key l a b wasBalanced wasPartitioned)))

theorem sortSliceList_perm {α : Type} (key : α → Int) (l : List α) :
    List.Perm (sortSliceList key l) l :=
  pdqLoop_perm key (l.length + 16) l 0 l.length (bitsLen l.length) true true

/-! ### The insertion-sort path (ranges of at most 12 elements): the
index-level loops compute a stable insertion sort. -/

theorem swp_cons {α : Type} (x : α) (l : List α) (i j : Nat) :
    swp (x :: l) (i + 1) (j + 1) = x :: swp l i j := by
  unfold swp
  cases hi : l[i]? <;> cases hj : l[j]? <;> simp [hi, hj]

theorem swp_adjacent {α : Type} :
    ∀ (P : List α) (y x : α) (R : List α),
      swp (P ++ y :: x :: R) (P.length + 1) P.length = P ++ x :: y :: R
  | [], y, x, R => by simp [swp]
  | p :: P, y, x, R => by
    have := swp_adjacent P y x R
    simpa [swp_cons] using congrArg (p :: ·) this

theorem getElem?_append_len {α : Type} (P : List α) (x : α) (R : List α) :
    (P ++ x :: R)[P.length]? = some x := by
  rw [List.getElem?_append_right (le_refl P.length)]
  simp

theorem getElem?_append_len_succ {α : Type} (P : List α) (y x : α) (R : List α) :
    (P ++ y :: x :: R)[P.length + 1]? = some x := by
  rw [List.getElem?_append_right (Nat.le_succ P.length)]
  simp

theorem goInsert_nil {α : Type} (key : α → Int) (x : α) : goInsert key [] x = [x] := by
  simp [goInsert]

theorem goInsert_concat_of_lt {α : Type} (key : α → Int) (P : List α) (y x : α)
    (h : key y < key x) :
    goInsert key (P ++ [y]) x = goInsert key P x ++ [y] := by
  simp [goInsert, h]

theorem goInsert_concat_of_ge {α : Type} (key : α → Int) (P : List α) (y x : α)
    (h : ¬ key y < key x) :
    goInsert key (P ++ [y]) x = (P ++ [y]) ++ [x] := by
  simp [goInsert, h]

theorem goInsert_length {α : Type} (key : α → Int) (acc : List α) (x : α) :
    (goInsert key acc x).length = acc.length + 1 := by
  have h := congrArg List.length
    (List.takeWhile_append_dropWhile (fun y => decide (key y < key x)) acc.reverse)
  simp only [List.length_append, List.length_reverse] at h
  simp [goInsert]
  omega

theorem insInner_eq {α : Type} (key : α → Int) (P : List α) (x : α) (R : List α) :
    insInner key 0 (P ++ x :: R) P.length = goInsert key P x ++ R := by
  induction P using List.reverseRecOn generalizing x R with
  | nil => simp [insInner, goInsert_nil]
  | append_singleton P' y ih =>
    have hx : ((P' ++ [y]) ++ x :: R)[P'.length + 1]? = some x := by
      rw [List.append_assoc, List.singleton_append]
      exact getElem?_append_len_succ P' y x R
    have hy : ((P' ++ [y]) ++ x :: R)[P'.length]? = some y := by
      rw [List.append_assoc, List.singleton_append]
      exact getElem?_append_len P' y (x :: R)
    have hlen : (P' ++ [y]).length = P'.length + 1 := by simp
    rw [hlen]
    unfold insInner
    rw [show lessIdx key ((P' ++ [y]) ++ x :: R) (P'.length + 1) P'.length =
        decide (key y < key x) by unfold lessIdx; rw [hx, hy]]
    by_cases hxy : key y < key x
    · rw [if_pos ⟨Nat.succ_pos P'.length, decide_eq_true hxy⟩]
      have hswp : swp ((P' ++ [y]) ++ x :: R) (P'.length + 1) P'.length =
          P' ++ x :: y :: R := by
        rw [List.append_assoc, List.singleton_append]
        exact swp_adjacent P' y x R
      rw [hswp, ih, goInsert_concat_of_lt key P' y x hxy]
      simp
    · rw [if_neg (by simp [hxy])]
      rw [goInsert_concat_of_ge key P' y x hxy]
      simp

theorem insOuter_eq {α : Type} (key : α → Int) :
    ∀ (rest : List α) (D : List α) (fuel : Nat), rest.length ≤ fuel →
      insOuter key 0 (D ++ rest).length (D ++ rest) D.length fuel =
        rest.foldl (goInsert key) D
  | [], D, fuel, _ => by cases fuel <;> simp [insOuter]
  | x :: rest', D, 0, h => by simp at h
  | x :: rest', D, fuel + 1, h => by
    rw [List.foldl_cons]
    unfold insOuter
    rw [if_pos (by simp only [List.length_append, List.length_cons]; omega)]
    rw [insInner_eq key D x rest']
    have hlen : (goInsert key D x).length = D.length + 1 := goInsert_length key D x
    have hb : (D ++ x :: rest').length = (goInsert key D x ++ rest').length := by
      simp only [List.length_append, List.length_cons, hlen]
      omega
    rw [hb, ← hlen]
    exact insOuter_eq key rest' (goInsert key D x) fuel (by simpa using h)

theorem insertionSortFunc_eq {α : Type} (key : α → Int) (l : List α) :
    insertionSortFunc key l 0 l.length = l.foldl (goInsert key) [] := by
  cases l with
  | nil => simp [insertionSortFunc, insOuter]
  | cons x r =>
    unfold insertionSortFunc
    have h := insOuter_eq key r [x] (r.length + 1) (Nat.le_succ r.length)
    simp only [List.singleton_append, List.length_cons, List.length_singleton] at h
    simpa [goInsert_nil] using h

theorem pdqLoop_succ {α : Type} (key : α → Int) (l : List α)
    (a b limit : Nat) (wasBalanced wasPartitioned : Bool) (fuel : Nat) :
    pdqLoop key l a b limit wasBalanced wasPartitioned (fuel + 1) =
      (let length := b - a
      if length ≤ 12 then insertionSortFunc key l a b
      else if limit = 0 then heapSortFunc key l a b
      else
        let limit1 := if ¬ wasBalanced then limit - 1 else limit
        let ps := pdqSetup key l a b wasBalanced wasPartitioned
        let pivot := ps.2.1
        if ps.2.2 then ps.1
        else if 0 < a ∧ ¬ lessIdx key ps.1 (a - 1) pivot then
          let pe := partitionEqualFunc key ps.1 a b pivot
          pdqLoop key pe.1 pe.2 b limit1 wasBalanced wasPartitioned fuel
        else
          let pt := partitionFunc key ps.1 a b pivot
          let mid := pt.2.1
          let wasBalanced2 := decide (min (mid - a) (b - mid) ≥ length / 8)
          if mid - a < b - mid then
            pdqLoop key (pdqLoop key pt.1 a mid limit1 true true fuel)
              (mid + 1) b limit1 wasBalanced2 pt.2.2 fuel
          else
            pdqLoop key (pdqLoop key pt.1 (mid + 1) b limit1 true true fuel)
              a mid limit1 wasBalanced2 pt.2.2 fuel) := rfl

theorem sortSliceList_of_le_12 {α : Type} (key : α → Int) (l : List α)
    (h : l.length ≤ 12) : sortSliceList key l = l.foldl (goInsert key) [] := by
  unfold sortSliceList
  rw [show l.length + 16 = (l.length + 15) + 1 from rfl, pdqLoop_succ]
  dsimp only
  rw [if_pos (by simpa using h)]
  exact insertionSortFunc_eq key l

theorem goInsert_filter {α : Type} (key : α → Int) (acc : List α) (x : α) (k : Int) :
    (goInsert key acc x).filter (fun t => decide (key t = k)) =
      acc.filter (fun t => decide (key t = k)) ++ (if key x = k then [x] else []) := by
  have huv : (acc.reverse.dropWhile (fun y => decide (key y < key x))).reverse ++
      (acc.reverse.takeWhile (fun y => decide (key y < key x))).reverse = acc := by
    rw [← List.reverse_append, List.takeWhile_append_dropWhile, List.reverse_reverse]
  unfold goInsert
  dsimp only
  conv_rhs => rw [← huv]
  rw [List.filter_append, List.filter_append, List.filter_cons]
  by_cases hk : key x = k
  · have hv : (acc.reverse.takeWhile (fun y => decide (key y < key x))).reverse.filter
        (fun t => decide (key t = k)) = [] := by
      rw [List.filter_eq_nil_iff]
      intro a ha
      have hlt := List.mem_takeWhile_imp (List.mem_reverse.mp ha)
      simp only [decide_eq_true_eq] at hlt ⊢
      omega
    rw [if_pos (decide_eq_true hk), hv, if_pos hk]
    simp
  · simp [hk]

theorem goInsSort_filter {α : Type} (key : α → Int) (k : Int) :
    ∀ (l acc : List α),
      (l.foldl (goInsert key) acc).filter (fun t => decide (key t = k)) =
        acc.filter (fun t => decide (key t = k)) ++ l.filter (fun t => decide (key t = k))
  | [], acc => by simp
  | x :: l, acc => by
    rw [List.foldl_cons, goInsSort_filter key k l _, goInsert_filter, List.filter_cons]
    by_cases hk : key x = k <;> simp [hk]

theorem dropWhile_key_ge {α : Type} (key : α → Int) (x : α) :
    ∀ (m : List α), m.Pairwise (fun s t => key s ≤ key t) →
      ∀ z ∈ m.dropWhile (fun y => decide (key y < key x)), key x ≤ key z
  | [], _, z, hz => by simp at hz
  | h :: t, hp, z, hz => by
    by_cases hph : key h < key x
    · rw [List.dropWhile_cons, if_pos (by simpa using hph)] at hz
      exact dropWhile_key_ge key x t hp.of_cons z hz
    · rw [List.dropWhile_cons, if_neg (by simpa using hph)] at hz
      rcases List.mem_cons.mp hz with rfl | hzt
      · omega
      · have := (List.pairwise_cons.mp hp).1 z hzt
        omega

theorem goInsert_pairwise {α : Type} (key : α → Int) (acc : List α) (x : α)
    (h : acc.Pairwise (fun s t => key t ≤ key s)) :
    (goInsert key acc x).Pairwise (fun s t => key t ≤ key s) := by
  have hrev : acc.reverse.Pairwise (fun s t => key s ≤ key t) := by
    rw [List.pairwise_reverse]
    exact h
  unfold goInsert
  dsimp only
  rw [List.pairwise_append]
  refine ⟨?_, ?_, ?_⟩
  · rw [List.pairwise_reverse]
    exact hrev.sublist (List.dropWhile_suffix _).sublist
  · rw [List.pairwise_cons]
    constructor
    · intro y hy
      have hlt := List.mem_takeWhile_imp (List.mem_reverse.mp hy)
      simp only [decide_eq_true_eq] at hlt
      omega
    · rw [List.pairwise_reverse]
      exact hrev.sublist (List.takeWhile_prefix _).sublist
  · intro z hz w hw
    have hxz : key x ≤ key z :=
      dropWhile_key_ge key x acc.reverse hrev z (List.mem_reverse.mp hz)
    rcases List.mem_cons.mp hw with rfl | hwv
    · exact hxz
    · have hlt := List.mem_takeWhile_imp (List.mem_reverse.mp hwv)
      simp only [decide_eq_true_eq] at hlt
      omega

theorem goInsSort_pairwise {α : Type} (key : α → Int) :
    ∀ (l acc : List α), acc.Pairwise (fun s t => key t ≤ key s) →
      (l.foldl (goInsert key) acc).Pairwise (fun s t => key t ≤ key s)
  | [], _, h => h
  | x :: l, acc, h => goInsSort_pairwise key l _ (goInsert_pairwise key acc x h)

/-- For ranges within the insertion-sort cutoff, `sort.Slice` output is
sorted: adjacent keys are nonincreasing. -/
theorem sortSliceList_pairwise_of_le_12 {α : Type} (key : α → Int) (l : List α)
    (h : l.length ≤ 12) :
    (sortSliceList key l).Pairwise (fun s t => key t ≤ key s) := by
  rw [sortSliceList_of_le_12 key l h]
  exact goInsSort_pairwise key l [] (by simp)

/-- For ranges within the insertion-sort cutoff, `sort.Slice` is stable: the
subsequence at every key value is exactly the input's subsequence. -/
theorem sortSliceList_filter_of_le_12 {α : Type} (key : α → Int) (l : List α)
    (h : l.length ≤ 12) (k : Int) :
    (sortSliceList key l).filter (fun t => decide (key t = k)) =
      l.filter (fun t => decide (key t = k)) := by
  rw [sortSliceList_of_le_12 key l h]
  simpa using goInsSort_filter key k l []

end GoSort

theorem sortTransactions_perm (txs : List Transaction) :
    List.Perm (sortTransactions txs) txs := by
  unfold sortTransactions
  exact GoSort.sortSliceList_perm _ txs

/-! ### Processor-level lemmas. -/

namespace Processor

/-- An empty snapshot ends the cycle before any mutation: the whole processor
state is returned unchanged, no block is produced, no callback runs. -/
theorem processNextBlock_empty (sha256 : List UInt8 → List UInt8)
    (tdxGetQuote : String → Option (List UInt8)) (bp : BlockProcessor)
    (now : String) (h : bp.pool = []) :
    processNextBlock sha256 tdxGetQuote bp now =
      { state := bp, produced := none, callbacks := [] } := by
  unfold processNextBlock Mempool.GetAllTransactions
  rw [if_pos (by simp [h])]

/-- A non-empty cycle in one stroke: the block it constructs, and the exact
final state (chain pointer advanced, history appended and trimmed, batched
ids removed from the pool, callback fired when configured). -/
theorem processNextBlock_spec (sha256 : List UInt8 → List UInt8)
    (tdxGetQuote : String → Option (List UInt8)) (bp : BlockProcessor)
    (now : String) (h : bp.pool ≠ []) :
    ∃ b : Block,
      processNextBlock sha256 tdxGetQuote bp now =
        { state :=
            { pool := Mempool.RemoveTransactions bp.pool
                ((sortTransactions bp.pool).map (fun t => t.id)),
              latestBlockID := b.id,
              processedBlocks :=
                trimBlocks bp.config.maxStoredBlocks (bp.processedBlocks ++ [b]),
              config := bp.config, hasTdxProvider := bp.hasTdxProvider },
          produced := some b,
          callbacks := if bp.config.hasBlockCallback then [b] else [] } ∧
      b.transactions = sortTransactions bp.pool ∧
      b.timestamp = now ∧
      b.prevBlockID = bp.latestBlockID ∧
      b.id = (NewBlock sha256 (sortTransactions bp.pool) bp.latestBlockID now).id := by
  unfold processNextBlock Mempool.GetAllTransactions
  rw [if_neg (by simpa [List.length_eq_zero] using h)]
  dsimp only
  split
  · split
    · exact ⟨_, rfl, rfl, rfl, rfl, rfl⟩
    · exact ⟨_, rfl, rfl, rfl, rfl, rfl⟩
  · exact ⟨_, rfl, rfl, rfl, rfl, rfl⟩

theorem trimBlocks_suffix (M : Int) (pb : List Block) :
    List.IsSuffix (trimBlocks M pb) pb := by
  unfold trimBlocks
  split
  · exact List.drop_suffix _ _
  · exact List.suffix_refl pb

theorem trimBlocks_length (M : Int) (pb : List Block) (hM : 0 ≤ M) :
    ((trimBlocks M pb).length : Int) = min (pb.length : Int) M := by
  unfold trimBlocks
  split
  · rename_i hgt
    rw [List.length_drop]
    omega
  · rename_i hle
    omega

theorem isSuffix_append {α : Type} {l₁ l₂ : List α} (t : List α)
    (h : List.IsSuffix l₁ l₂) : List.IsSuffix (l₁ ++ t) (l₂ ++ t) := by
  obtain ⟨w, hw⟩ := h
  exact ⟨w, by rw [← hw, List.append_assoc]⟩

theorem chainFrom_chain' :
    ∀ (prev : String) (blocks : List Block), ChainFrom prev blocks →
      List.Chain' (fun b1 b2 => b2.prevBlockID = b1.id) blocks
  | _, [], _ => List.chain'_nil
  | _, [b], _ => List.chain'_singleton b
  | _, b :: c :: rest, h => by
    rw [List.chain'_cons]
    exact ⟨h.2.1, chainFrom_chain' b.id (c :: rest) h.2⟩

theorem chain'_of_suffix {R : Block → Block → Prop} {l₁ l₂ : List Block}
    (h : List.IsSuffix l₁ l₂) (hc : List.Chain' R l₂) : List.Chain' R l₁ := by
  obtain ⟨w, hw⟩ := h
  rw [← hw] at hc
  exact (List.chain'_append.mp hc).2.1

theorem New_latestBlockID (tdxOk : Bool) (pool : List Transaction)
    (cfg : Option Config) : (New tdxOk pool cfg).latestBlockID = "" := by
  unfold New
  dsimp only
  split
  · split <;> rfl
  · rfl

theorem New_processedBlocks (tdxOk : Bool) (pool : List Transaction)
    (cfg : Option Config) : (New tdxOk pool cfg).processedBlocks = [] := by
  unfold New
  dsimp only
  split
  · split <;> rfl
  · rfl

theorem New_maxStoredBlocks (tdxOk : Bool) (pool : List Transaction)
    (cfg : Option Config) :
    (New tdxOk pool cfg).config.maxStoredBlocks = (cfg.getD DefaultConfig).maxStoredBlocks := by
  unfold New
  dsimp only
  split
  · split <;> rfl
  · rfl

theorem runCycles_chain (sha256 : List UInt8 → List UInt8)
    (tdxGetQuote : String → Option (List UInt8)) :
    ∀ (inputs : List (List Transaction × String)) (bp : BlockProcessor),
      ChainFrom bp.latestBlockID (runCycles sha256 tdxGetQuote bp inputs).2
  | [], _ => trivial
  | (pool, now) :: rest, bp => by
    unfold runCycles
    dsimp only
    by_cases hp : pool = []
    · rw [processNextBlock_empty sha256 tdxGetQuote _ now (by simpa using hp)]
      simpa using runCycles_chain sha256 tdxGetQuote rest { bp with pool := pool }
    · obtain ⟨b, hout, htx, hts, hprev, hid⟩ :=
        processNextBlock_spec sha256 tdxGetQuote { bp with pool := pool } now
          (by simpa using hp)
      rw [hout]
      refine ⟨by simpa using hprev, ?_⟩
      exact runCycles_chain sha256 tdxGetQuote rest
        { pool := Mempool.RemoveTransactions pool
            ((sortTransactions pool).map (fun t => t.id)),
          latestBlockID := b.id,
          processedBlocks :=
            trimBlocks bp.config.maxStoredBlocks (bp.processedBlocks ++ [b]),
          config := bp.config, hasTdxProvider := bp.hasTdxProvider }

theorem runCycles_suffix (sha256 : List UInt8 → List UInt8)
    (tdxGetQuote : String → Option (List UInt8)) :
    ∀ (inputs : List (List Transaction × String)) (bp : BlockProcessor),
      List.IsSuffix (runCycles sha256 tdxGetQuote bp inputs).1.processedBlocks
        (bp.processedBlocks ++ (runCycles sha256 tdxGetQuote bp inputs).2)
  | [], bp => by
    simp only [runCycles, List.append_nil]
    exact List.suffix_refl _
  | (pool, now) :: rest, bp => by
    unfold runCycles
    dsimp only
    by_cases hp : pool = []
    · rw [processNextBlock_empty sha256 tdxGetQuote _ now (by simpa using hp)]
      simpa using runCycles_suffix sha256 tdxGetQuote rest { bp with pool := pool }
    · obtain ⟨b, hout, htx, hts, hprev, hid⟩ :=
        processNextBlock_spec sha256 tdxGetQuote { bp with pool := pool } now
          (by simpa using hp)
      rw [hout]
      refine (runCycles_suffix sha256 tdxGetQuote rest _).trans ?_
      have h2 := isSuffix_append (runCycles sha256 tdxGetQuote
          { pool := Mempool.RemoveTransactions pool
              ((sortTransactions pool).map (fun t => t.id)),
            latestBlockID := b.id,
            processedBlocks :=
              trimBlocks bp.config.maxStoredBlocks (bp.processedBlocks ++ [b]),
            config := bp.config, hasTdxProvider := bp.hasTdxProvider } rest).2
        (trimBlocks_suffix bp.config.maxStoredBlocks (bp.processedBlocks ++ [b]))
      simpa [List.append_assoc] using h2

theorem runCycles_length (sha256 : List UInt8 → List UInt8)
    (tdxGetQuote : String → Option (List UInt8)) (M : Int) (hM : 0 ≤ M) :
    ∀ (inputs : List (List Transaction × String)) (bp : BlockProcessor),
      bp.config.maxStoredBlocks = M →
      (bp.processedBlocks.length : Int) ≤ M →
      ((runCycles sha256 tdxGetQuote bp inputs).1.processedBlocks.length : Int) ≤ M
  | [], _, _, hlen => hlen
  | (pool, now) :: rest, bp, hcfg, hlen => by
    unfold runCycles
    dsimp only
    by_cases hp : pool = []
    · rw [processNextBlock_empty sha256 tdxGetQuote _ now (by simpa using hp)]
      exact runCycles_length sha256 tdxGetQuote M hM rest { bp with pool := pool }
        (by simpa using hcfg) (by simpa using hlen)
    · obtain ⟨b, hout, htx, hts, hprev, hid⟩ :=
        processNextBlock_spec sha256 tdxGetQuote { bp with pool := pool } now
          (by simpa using hp)
      rw [hout]
      refine runCycles_length sha256 tdxGetQuote M hM rest _ (by simpa using hcfg) ?_
      have := trimBlocks_length bp.config.maxStoredBlocks (bp.processedBlocks ++ [b])
        (by rw [show bp.config.maxStoredBlocks = M from by simpa using hcfg]; exact hM)
      dsimp only
      rw [this]
      simp only [List.length_append, List.length_cons, List.length_nil]
      omega

end Processor

theorem foldl_strBytes :
    ∀ (txs : List Transaction) (init : List UInt8),
      txs.foldl (fun d t => d ++ strBytes t.id) init =
        init ++ txs.flatMap (fun t => strBytes t.id)
  | [], init => by simp
  | t :: txs, init => by
    rw [List.foldl_cons, foldl_strBytes txs _]
    simp [List.append_assoc]

theorem bigIntInt64_of_fits (q : Int) (h1 : -(2 ^ 63) ≤ q) (h2 : q < 2 ^ 63) :
    bigIntInt64 q = q := by
  unfold bigIntInt64 wrap64 normInt64
  dsimp only
  have h64 : q.natAbs % 2 ^ 64 = q.natAbs := Nat.mod_eq_of_lt (by omega)
  rw [h64]
  by_cases hq : q < 0
  · rw [if_pos hq]
    by_cases hlt : q.natAbs < 2 ^ 63
    · rw [if_pos hlt]
      omega
    · rw [if_neg hlt]
      omega
  · rw [if_neg hq]
    rw [if_pos (by omega)]
    omega

/-! ### The claims. -/

set_option maxHeartbeats 4000000 in
/-- C1, claim as stated (counterexample): the cycle on the 13-transaction
snapshot `cePool` produces the batch `ceBlock`, and that batch does NOT
satisfy "ordered by priorityKey descending AND relative snapshot order
preserved among equal keys" — `sort.Slice` is unstable above its 12-element
insertion-sort cutoff (snapshot order B,C,D,G of the priority-9 transactions
comes out D,B,G,C). -/
theorem claimC1_counterexample :
    (Processor.processNextBlock sha0 tdx0 ceBP "t").produced = some ceBlock ∧
    ¬ (List.Chain' (fun s t => t.priority ≤ s.priority) ceBlock.transactions ∧
       ∀ k : Int, ceBlock.transactions.filter (fun t => decide (t.priority = k)) =
         cePool.filter (fun t => decide (t.priority = k))) := by
  refine ⟨by decide, fun h => absurd (h.2 9) (by decide)⟩

set_option maxHeartbeats 4000000 in
/-- C1 (amended): for every batch produced by a cycle whose snapshot has at
most 12 items (the insertion-sort path of `sort.Slice`), the items are
ordered by priorityKey descending and, among items with equal priorityKey,
the relative order they had in the snapshot is preserved; for larger
snapshots `sort.Slice` does not guarantee stability. -/
theorem claimC1_small_snapshot_sorted_stable (sha256 : List UInt8 → List UInt8)
    (tdxGetQuote : String → Option (List UInt8)) (bp : Processor.BlockProcessor)
    (now : String) (b : Block) (hsize : bp.pool.length ≤ 12)
    (hprod : (Processor.processNextBlock sha256 tdxGetQuote bp now).produced = some b) :
    List.Chain' (fun s t => t.priority ≤ s.priority) b.transactions ∧
    ∀ k : Int, b.transactions.filter (fun t => decide (t.priority = k)) =
      bp.pool.filter (fun t => decide (t.priority = k)) := by
  have hp : bp.pool ≠ [] := by
    intro h0
    rw [Processor.processNextBlock_empty sha256 tdxGetQuote bp now h0] at hprod
    simp at hprod
  obtain ⟨b', hout, htx, _, _, _⟩ :=
    Processor.processNextBlock_spec sha256 tdxGetQuote bp now hp
  rw [hout] at hprod
  simp only [Option.some.injEq] at hprod
  subst hprod
  rw [htx]
  unfold sortTransactions
  constructor
  · have hpw := GoSort.sortSliceList_pairwise_of_le_12 (fun t => t.priority) bp.pool hsize
    exact List.Pairwise.chain' hpw
  · intro k
    exact GoSort.sortSliceList_filter_of_le_12 (fun t => t.priority) bp.pool hsize k

set_option maxHeartbeats 4000000 in
/-- C1 (amended, witness): the specification's scenario — snapshot with
priorities 5, 50, 10 — is within the cutoff, and its batch is sorted and
stable relative to the snapshot. -/
theorem claimC1_small_snapshot_witness :
    (wBP.pool.length ≤ 12 ∧
      (Processor.processNextBlock sha0 tdx0 wBP "t").produced = some wBlock) ∧
    (List.Chain' (fun s t => t.priority ≤ s.priority) wBlock.transactions ∧
      ∀ k : Int, wBlock.transactions.filter (fun t => decide (t.priority = k)) =
        wBP.pool.filter (fun t => decide (t.priority = k))) :=
  ⟨⟨by decide, by decide⟩,
    claimC1_small_snapshot_sorted_stable sha0 tdx0 wBP "t" wBlock (by decide) (by decide)⟩

/-- C2: for every non-empty cycle, an id is removed from the pool by the
cycle (present before, absent after) exactly when it is the id of an item of
the cycle's batch; in particular nothing outside the snapshot is removed. -/
theorem claimC2_conservation (sha256 : List UInt8 → List UInt8)
    (tdxGetQuote : String → Option (List UInt8)) (bp : Processor.BlockProcessor)
    (now : String) (b : Block) (hne : bp.pool ≠ [])
    (hprod : (Processor.processNextBlock sha256 tdxGetQuote bp now).produced = some b) :
    ∀ s : String,
      ((∃ t ∈ bp.pool, t.id = s) ∧
        ¬ ∃ t ∈ (Processor.processNextBlock sha256 tdxGetQuote bp now).state.pool,
          t.id = s) ↔
      s ∈ b.transactions.map (fun t => t.id) := by
  obtain ⟨b', hout, htx, _, _, _⟩ :=
    Processor.processNextBlock_spec sha256 tdxGetQuote bp now hne
  rw [hout] at hprod ⊢
  simp only [Option.some.injEq] at hprod
  subst hprod
  intro s
  dsimp only
  rw [htx]
  unfold Mempool.RemoveTransactions
  have hperm := sortTransactions_perm bp.pool
  constructor
  · rintro ⟨⟨t, ht, rfl⟩, hnot⟩
    by_contra hmem
    refine hnot ⟨t, List.mem_filter.mpr ⟨ht, ?_⟩, rfl⟩
    simp only [Bool.not_eq_eq_eq_not, Bool.not_true, Bool.not_eq_true']
    rw [← Bool.not_eq_true]
    intro hc
    exact hmem (by simpa [List.elem_iff] using hc)
  · intro hmem
    obtain ⟨t, htmem, rfl⟩ := List.mem_map.mp hmem
    refine ⟨⟨t, hperm.mem_iff.mp htmem, rfl⟩, ?_⟩
    rintro ⟨u, hu, hus⟩
    have hfil := List.mem_filter.mp hu
    have hnotin : ¬ ((sortTransactions bp.pool).map (fun t => t.id)).contains u.id = true := by
      simpa using hfil.2
    exact hnotin (by
      rw [List.elem_iff, hus]
      exact List.mem_map.mpr ⟨t, htmem, rfl⟩)

set_option maxHeartbeats 4000000 in
/-- C2 (witness): a concrete two-transaction cycle. -/
theorem claimC2_conservation_witness :
    (w2BP.pool ≠ [] ∧
      (Processor.processNextBlock sha0 tdx0 w2BP "t").produced = some w2Block) ∧
    (∀ s : String,
      ((∃ t ∈ w2BP.pool, t.id = s) ∧
        ¬ ∃ t ∈ (Processor.processNextBlock sha0 tdx0 w2BP "t").state.pool, t.id = s) ↔
      s ∈ w2Block.transactions.map (fun t => t.id)) :=
  ⟨⟨by decide, by decide⟩,
    claimC2_conservation sha0 tdx0 w2BP "t" w2Block (by decide) (by decide)⟩

/-- C3: over any sequence of cycles starting from a fresh builder, the
produced blocks chain from the empty string (the first produced block has
empty `prevBlockID`, every later one points at its immediate predecessor's
id), the retained history is a suffix of the produced sequence, and adjacent
retained blocks satisfy the same chaining. -/
theorem claimC3_chain (sha256 : List UInt8 → List UInt8)
    (tdxGetQuote : String → Option (List UInt8)) (tdxOk : Bool)
    (pool0 : List Transaction) (cfg : Option Processor.Config)
    (inputs : List (List Transaction × String))
    (_hM : 1 ≤ (cfg.getD Processor.DefaultConfig).maxStoredBlocks) :
    Processor.ChainFrom ""
      (Processor.runCycles sha256 tdxGetQuote (Processor.New tdxOk pool0 cfg) inputs).2 ∧
    List.Chain' (fun b1 b2 => b2.prevBlockID = b1.id)
      (Processor.runCycles sha256 tdxGetQuote (Processor.New tdxOk pool0 cfg) inputs).2 ∧
    List.IsSuffix
      (Processor.runCycles sha256 tdxGetQuote (Processor.New tdxOk pool0 cfg) inputs).1.processedBlocks
      (Processor.runCycles sha256 tdxGetQuote (Processor.New tdxOk pool0 cfg) inputs).2 ∧
    List.Chain' (fun b1 b2 => b2.prevBlockID = b1.id)
      (Processor.runCycles sha256 tdxGetQuote (Processor.New tdxOk pool0 cfg) inputs).1.processedBlocks := by
  have hchain := Processor.runCycles_chain sha256 tdxGetQuote inputs
    (Processor.New tdxOk pool0 cfg)
  rw [Processor.New_latestBlockID] at hchain
  have hchain' := Processor.chainFrom_chain' "" _ hchain
  have hsuf := Processor.runCycles_suffix sha256 tdxGetQuote inputs
    (Processor.New tdxOk pool0 cfg)
  rw [Processor.New_processedBlocks, List.nil_append] at hsuf
  exact ⟨hchain, hchain', hsuf, Processor.chain'_of_suffix hsuf hchain'⟩

set_option maxHeartbeats 4000000 in
/-- C3 (witness): three concrete cycles (the middle one empty). -/
theorem claimC3_chain_witness :
    (1 ≤ ((none : Option Processor.Config).getD Processor.DefaultConfig).maxStoredBlocks) ∧
    (Processor.ChainFrom ""
      (Processor.runCycles sha0 tdx0 (Processor.New false [] none)
        [([mkTx "p" 1], "t1"), ([], "t2"), ([mkTx "q" 2], "t3")]).2 ∧
    List.Chain' (fun b1 b2 => b2.prevBlockID = b1.id)
      (Processor.runCycles sha0 tdx0 (Processor.New false [] none)
        [([mkTx "p" 1], "t1"), ([], "t2"), ([mkTx "q" 2], "t3")]).2 ∧
    List.IsSuffix
      (Processor.runCycles sha0 tdx0 (Processor.New false [] none)
        [([mkTx "p" 1], "t1"), ([], "t2"), ([mkTx "q" 2], "t3")]).1.processedBlocks
      (Processor.runCycles sha0 tdx0 (Processor.New false [] none)
        [([mkTx "p" 1], "t1"), ([], "t2"), ([mkTx "q" 2], "t3")]).2 ∧
    List.Chain' (fun b1 b2 => b2.prevBlockID = b1.id)
      (Processor.runCycles sha0 tdx0 (Processor.New false [] none)
        [([mkTx "p" 1], "t1"), ([], "t2"), ([mkTx "q" 2], "t3")]).1.processedBlocks) :=
  ⟨by decide,
    claimC3_chain sha0 tdx0 false [] none
      [([mkTx "p" 1], "t1"), ([], "t2"), ([mkTx "q" 2], "t3")] (by decide)⟩

/-- C4: inserting a transaction whose id is already present returns `false`,
leaves the pool (hence the stored item's fields and the pool size) unchanged,
and invokes no notification hook. -/
theorem claimC4_duplicate_insert (pool : List Transaction) (tx t0 : Transaction)
    (hmem : t0 ∈ pool) (hid : t0.id = tx.id) :
    Mempool.AddTransaction pool tx =
      { pool := pool, added := false, hookCalls := [] } ∧
    (Mempool.AddTransaction pool tx).pool.length = pool.length ∧
    t0 ∈ (Mempool.AddTransaction pool tx).pool := by
  have hany : pool.any (fun t => t.id == tx.id) = true :=
    List.any_eq_true.mpr ⟨t0, hmem, by simp [hid]⟩
  have h1 : Mempool.AddTransaction pool tx =
      { pool := pool, added := false, hookCalls := [] } := by
    unfold Mempool.AddTransaction
    rw [if_pos hany]
  exact ⟨h1, by rw [h1], by rw [h1]; exact hmem⟩

/-- C4 (witness): a second insert with the same id `x` (different payload
fields) is rejected and the pool keeps the first item. -/
theorem claimC4_duplicate_insert_witness :
    (mkTx "x" 1 ∈ [mkTx "x" 1] ∧ (mkTx "x" 1).id = (mkTx "x" 7).id) ∧
    (Mempool.AddTransaction [mkTx "x" 1] (mkTx "x" 7) =
      { pool := [mkTx "x" 1], added := false, hookCalls := [] } ∧
    (Mempool.AddTransaction [mkTx "x" 1] (mkTx "x" 7)).pool.length =
      ([mkTx "x" 1] : List Transaction).length ∧
    mkTx "x" 1 ∈ (Mempool.AddTransaction [mkTx "x" 1] (mkTx "x" 7)).pool) :=
  ⟨⟨by decide, by decide⟩,
    claimC4_duplicate_insert [mkTx "x" 1] (mkTx "x" 7) (mkTx "x" 1)
      (by decide) (by decide)⟩

/-- C5: with a configured maximum `M ≥ 1`, (a) after any number of cycles
from a fresh builder the history length never exceeds `M`, and (b) a single
non-empty cycle from ANY prior state (history arbitrarily long, so an excess
larger than 1 is covered) leaves the history a suffix of `old ++ [b]` — the
oldest entries are the ones dropped — of length `min (old + 1) M`. -/
theorem claimC5_bounded_history (cfg : Processor.Config)
    (hM : 1 ≤ cfg.maxStoredBlocks) :
    (∀ (sha256 : List UInt8 → List UInt8)
        (tdxGetQuote : String → Option (List UInt8)) (tdxOk : Bool)
        (pool0 : List Transaction) (inputs : List (List Transaction × String)),
      ((Processor.runCycles sha256 tdxGetQuote
          (Processor.New tdxOk pool0 (some cfg)) inputs).1.processedBlocks.length : Int) ≤
        cfg.maxStoredBlocks) ∧
    (∀ (sha256 : List UInt8 → List UInt8)
        (tdxGetQuote : String → Option (List UInt8))
        (bp : Processor.BlockProcessor) (now : String) (b : Block),
      bp.config = cfg → bp.pool ≠ [] →
      (Processor.processNextBlock sha256 tdxGetQuote bp now).produced = some b →
      List.IsSuffix
        (Processor.processNextBlock sha256 tdxGetQuote bp now).state.processedBlocks
        (bp.processedBlocks ++ [b]) ∧
      (((Processor.processNextBlock sha256 tdxGetQuote bp now).state.processedBlocks.length : Int) =
        min ((bp.processedBlocks.length : Int) + 1) cfg.maxStoredBlocks)) := by
  constructor
  · intro sha256 tdxGetQuote tdxOk pool0 inputs
    refine Processor.runCycles_length sha256 tdxGetQuote cfg.maxStoredBlocks
      (by omega) inputs _ ?_ ?_
    · rw [Processor.New_maxStoredBlocks]
      rfl
    · rw [Processor.New_processedBlocks]
      simp only [List.length_nil, Int.ofNat_zero]
      omega
  · intro sha256 tdxGetQuote bp now b hcfg hne hprod
    obtain ⟨b', hout, _, _, _, _⟩ :=
      Processor.processNextBlock_spec sha256 tdxGetQuote bp now hne
    rw [hout] at hprod ⊢
    simp only [Option.some.injEq] at hprod
    subst hprod
    dsimp only
    constructor
    · exact Processor.trimBlocks_suffix _ _
    · have hlen := Processor.trimBlocks_length bp.config.maxStoredBlocks
        (bp.processedBlocks ++ [b']) (by rw [hcfg]; omega)
      rw [hlen, hcfg]
      simp only [List.length_append, List.length_cons, List.length_nil]
      omega

set_option maxHeartbeats 4000000 in
/-- C5 (witness): the specification's scenario — maximum 2 retained blocks,
three non-empty cycles — ends with a history of length at most 2 (part (a)
instantiated; the exact history contents follow from part (b)). -/
theorem claimC5_bounded_history_witness :
    (1 ≤ cfg2.maxStoredBlocks) ∧
    ((Processor.runCycles sha0 tdx0 (Processor.New false [] (some cfg2))
        [([mkTx "p" 1], "t1"), ([mkTx "q" 2], "t2"), ([mkTx "r" 3], "t3")]).1.processedBlocks.length : Int) ≤
      cfg2.maxStoredBlocks :=
  ⟨by decide,
    (claimC5_bounded_history cfg2 (by decide)).1 sha0 tdx0 false []
      [([mkTx "p" 1], "t1"), ([mkTx "q" 2], "t2"), ([mkTx "r" 3], "t3")]⟩

/-- C6: a cycle whose snapshot is empty is a complete no-op — no batch, no
removal, no callback, and the whole processor state (history, chain pointer,
pool) is returned unchanged. -/
theorem claimC6_empty_cycle (sha256 : List UInt8 → List UInt8)
    (tdxGetQuote : String → Option (List UInt8)) (bp : Processor.BlockProcessor)
    (now : String) (h : bp.pool = []) :
    Processor.processNextBlock sha256 tdxGetQuote bp now =
      { state := bp, produced := none, callbacks := [] } ∧
    (Processor.processNextBlock sha256 tdxGetQuote bp now).state.processedBlocks =
      bp.processedBlocks ∧
    (Processor.processNextBlock sha256 tdxGetQuote bp now).state.latestBlockID =
      bp.latestBlockID := by
  have h1 := Processor.processNextBlock_empty sha256 tdxGetQuote bp now h
  exact ⟨h1, by rw [h1], by rw [h1]⟩

/-- C6 (witness): a processor with an empty pool and a non-trivial chain
pointer is untouched by the cycle. -/
theorem claimC6_empty_cycle_witness :
    eBP.pool = [] ∧
    (Processor.processNextBlock sha0 tdx0 eBP "t" =
      { state := eBP, produced := none, callbacks := [] } ∧
    (Processor.processNextBlock sha0 tdx0 eBP "t").state.processedBlocks =
      eBP.processedBlocks ∧
    (Processor.processNextBlock sha0 tdx0 eBP "t").state.latestBlockID =
      eBP.latestBlockID) :=
  ⟨rfl, claimC6_empty_cycle sha0 tdx0 eBP "t" rfl⟩

/-- C7: every produced batch's id is the hex encoding of the digest of the
member ids' bytes concatenated in batch (= final sorted) order, followed by
the construction timestamp's string form, followed by the previous batch id. -/
theorem claimC7_batch_id (sha256 : List UInt8 → List UInt8)
    (tdxGetQuote : String → Option (List UInt8)) (bp : Processor.BlockProcessor)
    (now : String) (b : Block)
    (hprod : (Processor.processNextBlock sha256 tdxGetQuote bp now).produced = some b) :
    b.id = hexEncode (sha256
      (b.transactions.flatMap (fun t => strBytes t.id) ++ strBytes b.timestamp ++
        strBytes b.prevBlockID)) := by
  have hp : bp.pool ≠ [] := by
    intro h0
    rw [Processor.processNextBlock_empty sha256 tdxGetQuote bp now h0] at hprod
    simp at hprod
  obtain ⟨b', hout, htx, hts, hprev, hid⟩ :=
    Processor.processNextBlock_spec sha256 tdxGetQuote bp now hp
  rw [hout] at hprod
  simp only [Option.some.injEq] at hprod
  subst hprod
  rw [htx, hts, hprev, hid]
  unfold NewBlock Block.generateID
  dsimp only
  rw [foldl_strBytes]
  simp [List.append_assoc]

/-- C7 (witness): the concrete cycle on `wPool`. -/
theorem claimC7_batch_id_witness :
    ((Processor.processNextBlock sha0 tdx0 wBP "t").produced = some wBlock) ∧
    wBlock.id = hexEncode (sha0
      (wBlock.transactions.flatMap (fun t => strBytes t.id) ++
        strBytes wBlock.timestamp ++ strBytes wBlock.prevBlockID)) :=
  ⟨by decide, claimC7_batch_id sha0 tdx0 wBP "t" wBlock (by decide)⟩

/-- C8 (code-bug evidence): `processor.New` performs no validation — with a
negative tick interval it still returns a fully formed builder carrying that
interval, and the failure only surfaces when `Start` is called, where
`time.NewTicker` panics before the loop runs. The claim that such a
configuration "is rejected at construction time, before the timer loop
starts" does not hold of the code. -/
theorem claimC8_construction_not_validated :
    Processor.New true [] (some badConfig) =
      { pool := [], latestBlockID := "", processedBlocks := [],
        config := badConfig, hasTdxProvider := false } ∧
    badConfig.interval ≤ 0 ∧
    Processor.startTicker badConfig.interval =
      Except.error "non-positive interval for NewTicker" :=
  ⟨rfl, by decide, rfl⟩

/-- C9 (code-bug evidence): in the `Start` loop each ticker delivery executes
`go bp.processNextBlock()`; after two ticks with the first cycle still
running, two processing goroutines are in flight simultaneously — the loop
neither coalesces cycles nor ensures at most one runs at a time. -/
theorem claimC9_concurrent_cycles :
    (LoopModel.runLoop [LoopModel.LoopEvent.tick, LoopModel.LoopEvent.tick]).running =
      [1, 0] ∧
    2 ≤ (LoopModel.runLoop [LoopModel.LoopEvent.tick, LoopModel.LoopEvent.tick]).running.length :=
  ⟨rfl, by decide⟩

/-- C10: a transaction decoded from Ethereum data has
`priorityKey = ⌊gasPrice / 10⁹⌋` (floor division; Go big.Div is Euclidean,
which coincides with floor for the positive divisor) whenever `gasPrice` is
non-nil and nonzero and the quotient fits in a signed 64-bit integer, and
`priorityKey = 0` when `gasPrice` is nil or zero. -/
theorem claimC10_priority (sha256 : List UInt8 → List UInt8)
    (fromAddr toAddr : String) (value : Option Int) (gasLimit nonce : Nat)
    (data : List UInt8) (rawData : String) (now : String) :
    (∀ g : Int, g ≠ 0 → -(2 ^ 63) ≤ bigDiv g 1000000000 →
      bigDiv g 1000000000 < 2 ^ 63 →
      (NewEthereumTransaction sha256 fromAddr toAddr value (some g) gasLimit
        nonce data rawData now).priority = Int.fdiv g 1000000000) ∧
    (NewEthereumTransaction sha256 fromAddr toAddr value none gasLimit
      nonce data rawData now).priority = 0 ∧
    (NewEthereumTransaction sha256 fromAddr toAddr value (some 0) gasLimit
      nonce data rawData now).priority = 0 := by
  refine ⟨?_, rfl, rfl⟩
  intro g hg h1 h2
  have hbit : bigBitLen g > 0 := by
    unfold bigBitLen bitsLen
    rw [if_neg (by simpa [Int.natAbs_eq_zero] using hg)]
    omega
  unfold NewEthereumTransaction
  dsimp only
  rw [if_pos hbit]
  rw [bigIntInt64_of_fits (bigDiv g 1000000000) h1 h2]
  unfold bigDiv
  rw [Int.fdiv_eq_ediv g (by norm_num : (0 : Int) ≤ 1000000000)]
  rfl

/-- C10 (witness): gasPrice 5 Gwei plus a negative and a non-multiple case
folded into one concrete instance: 5000000000 / 10⁹ = 5. -/
theorem claimC10_priority_witness :
    ((5000000000 : Int) ≠ 0 ∧ -(2 ^ 63) ≤ bigDiv 5000000000 1000000000 ∧
      bigDiv 5000000000 1000000000 < 2 ^ 63) ∧
    (NewEthereumTransaction sha0 "f" "t" none (some 5000000000) 21000 0 [] "" "now").priority =
      Int.fdiv 5000000000 1000000000 :=
  ⟨⟨by decide, by decide, by decide⟩,
    (claimC10_priority sha0 "f" "t" none 21000 0 [] "" "now").1 5000000000
      (by decide) (by decide) (by decide)⟩

end Flashblock
